import Mathlib

/-!
Verification of the external sort engine `extsort.c`.

The source is a classic external merge sort: records of a fixed size
`dat_size` are pushed into an in-memory buffer; when the buffer's memory
estimate would exceed `max_mem` the buffer is sorted (`qsort`) and spilled
to a temporary file (a "run", `blk_t`); `extsort_sort` flushes the final
buffer and builds a min-heap (`kheap.h`) over the runs' head records;
`extsort_shift` repeatedly extracts the minimal head, refills that run's
head from its file (`_blk_read`), and returns records in globally sorted
order.

Modelling choices:
* A record is a value of an opaque type `α`; the caller-supplied
  comparator `extsort_cmp_f` is a function `cmp : α → α → Int`
  (negative means strictly smaller, as in C).
* A run's temporary file is the list of records it contains, in write
  order; `blk_t.dat` (the head record most recently read) together with
  the unread remainder of the file forms `Blk`.
* `qsort` is a C-library collaborator; it is modelled by its contract
  (a sorted permutation of the input under the comparator) as an
  insertion sort.
* The binary min-heap of `kheap.h` is not part of the sources under
  review; following the specification it is modelled by its min-heap
  semantics: the heap is the multiset of open runs and extraction picks
  a run whose head record is minimal under `blk_is_smaller`
  (`cmp a b < 0`).
* Byte-level file I/O is modelled separately (`BlkFile`, `_blk_read`)
  for the read-outcome trichotomy; fatal `error(...)` calls are
  `Except.error`.
-/

section Extsort

variable {α : Type}

/-- Size of `void*` on the LP64 platforms the code targets: the per-entry
bookkeeping overhead `sizeof(void*)` used in `extsort_push`'s `delta`. -/
def ptrSize : Nat := 8

/-- Non-strict comparison derived from a C comparator: `a` is less than or
equal to `b` when `cmp a b <= 0`. -/
def cmpLe (cmp : α → α → Int) (a b : α) : Prop := cmp a b ≤ 0

/-- The comparator is a total order in the C `qsort` sense: if `a` is not
strictly below `b` then `b ≤ a` (connexity with consistent signs), and
`≤` is transitive. -/
@[reducible] def TotalCmp (cmp : α → α → Int) : Prop :=
  (∀ a b : α, ¬ cmp a b < 0 → cmp b a ≤ 0) ∧
  (∀ a b c : α, cmp a b ≤ 0 → cmp b c ≤ 0 → cmp a c ≤ 0)

/-- Insert a record into a list at the first position where it compares
less-or-equal, keeping a sorted list sorted. -/
def insertSorted (cmp : α → α → Int) (x : α) : List α → List α
  | [] => [x]
  | y :: l => if cmp x y ≤ 0 then x :: y :: l else y :: insertSorted cmp x l

/-- Model of `qsort(es->buf, es->nbuf, sizeof(void*), es->cmp)`: the C
library sort, specified (C standard) to reorder the array into a
permutation that is non-decreasing under the comparator. Realised as an
insertion sort. -/
def isort (cmp : α → α → Int) : List α → List α
  | [] => []
  | x :: l => insertSorted cmp x (isort cmp l)

/-- One open run during the merge phase: `dat` is the head record most
recently read by `_blk_read` into `blk_t.dat`, and `rest` is the sequence
of records of the temporary file not yet read. -/
structure Blk (α : Type) where
  dat : α
  rest : List α

/-- Modelled from the spec: the binary min-heap of `kheap.h` (not among
the sources under review). Extracting the heap minimum returns an element
no other element is strictly smaller than, under `blk_is_smaller`
(`cmp a b < 0`). `pickMin cmp b l` returns such a minimal run of `b :: l`
together with the remaining runs. -/
def pickMin (cmp : α → α → Int) (b : Blk α) : List (Blk α) → Blk α × List (Blk α)
  | [] => (b, [])
  | c :: rest =>
    if cmp (pickMin cmp c rest).1.dat b.dat < 0 then
      ((pickMin cmp c rest).1, b :: (pickMin cmp c rest).2)
    else
      (b, c :: rest)

/-- Total number of records held by a collection of open runs (head plus
unread file contents). -/
def heapSize : List (Blk α) → Nat
  | [] => 0
  | b :: l => b.rest.length + 1 + heapSize l

/-- All not-yet-returned records of a collection of open runs: for each
run its head record followed by the unread contents of its file. -/
def heapRecords : List (Blk α) → List α
  | [] => []
  | b :: l => b.dat :: (b.rest ++ heapRecords l)

/-- After the heap minimum is deleted (`khp_delete`), `_blk_read` refills
that run's head from its file; if the read yields data the run is
reinserted (`khp_insert`), otherwise the run is exhausted and dropped. -/
def reinsert (rest : List α) (others : List (Blk α)) : List (Blk α) :=
  match rest with
  | [] => others
  | x :: xs => ⟨x, xs⟩ :: others

/-- The engine session `struct _extsort_t` for a configured session:
`dat_size`, the running memory estimate `mem`, the budget `max_mem`, the
comparator `cmp`, the in-memory buffer `buf` (in push order; `nbuf` is
`buf.length`), the number `nblk` of spilled runs, the contents `blk` of
each run's temporary file in creation order, and the merge heap `bhp`
(populated by `extsort_sort`). -/
structure extsort_t (α : Type) where
  dat_size : Nat
  mem : Nat
  max_mem : Nat
  cmp : α → α → Int
  buf : List α
  nblk : Nat
  blk : List (List α)
  bhp : List (Blk α)

/-- A freshly configured session: the state after `extsort_alloc`,
`extsort_set` of the comparator, record size and memory budget, and
`extsort_init` (which only asserts the configuration and allocates the
scratch record). -/
def extsort_session (cmp : α → α → Int) (dat_size max_mem : Nat) : extsort_t α :=
  { dat_size := dat_size, mem := 0, max_mem := max_mem, cmp := cmp,
    buf := [], nblk := 0, blk := [], bhp := [] }

/-- Model of `_buf_flush`: if the buffer is empty do nothing; otherwise
sort the buffered records with the configured comparator, create one new
run whose temporary file holds the sorted records sequentially (rewound
to the start), clear the buffer and reset the memory estimate. -/
def _buf_flush (es : extsort_t α) : extsort_t α :=
  if es.buf.length = 0 then es
  else
    { es with
      nblk := es.nblk + 1,
      blk := es.blk ++ [isort es.cmp es.buf],
      buf := [],
      mem := 0 }

/-- Model of `extsort_push`: compute `delta = sizeof(void*) + dat_size`;
if the buffer is non-empty and `mem + delta` would exceed `max_mem`,
flush first; then append the record to the buffer and add `delta` to the
memory estimate. -/
def extsort_push (es : extsort_t α) (dat : α) : extsort_t α :=
  let delta := ptrSize + es.dat_size
  let es2 := if 0 < es.buf.length ∧ es.mem + delta > es.max_mem then _buf_flush es else es
  { es2 with buf := es2.buf ++ [dat], mem := es2.mem + delta }

/-- Push a whole sequence of records, first to last. -/
def pushAll (es : extsort_t α) : List α → extsort_t α
  | [] => es
  | r :: rs => pushAll (extsort_push es r) rs

/-- Model of `extsort_sort` (finalize): flush any remaining buffered
records as a final run, release the buffer, then open every run, read its
first record into its head slot and insert into the heap every run whose
read yielded data (a run with an empty file is not inserted). -/
def extsort_sort (es : extsort_t α) : extsort_t α :=
  let es2 := _buf_flush es
  { es2 with
    buf := [],
    bhp := es2.blk.filterMap (fun f =>
      match f with
      | [] => none
      | x :: xs => some ⟨x, xs⟩) }

/-- Model of `extsort_shift` (pull): if the heap is empty return `NULL`
(end of data) leaving the session unchanged; otherwise take the heap's
minimal run, hand its head record to the caller (the `tmp_dat` pointer
swap), delete it from the heap, read its next record and reinsert it if
it still has data. -/
def extsort_shift (es : extsort_t α) : Option α × extsort_t α :=
  match es.bhp with
  | [] => (none, es)
  | b :: l =>
    (some (pickMin es.cmp b l).1.dat,
     { es with bhp := reinsert (pickMin es.cmp b l).1.rest (pickMin es.cmp b l).2 })

/-- Iterate `extsort_shift` `n` times, keeping only the session state. -/
def shiftN : Nat → extsort_t α → extsort_t α
  | 0, es => es
  | n + 1, es => shiftN n (extsort_shift es).2

/-- The run at the heap's minimum (`es->bhp->dat[0]`), if any. -/
def heapMin (cmp : α → α → Int) : List (Blk α) → Option (Blk α)
  | [] => none
  | b :: l => some (pickMin cmp b l).1

theorem pickMin_heapSize (cmp : α → α → Int) (b : Blk α) (l : List (Blk α)) :
    (pickMin cmp b l).1.rest.length + 1 + heapSize (pickMin cmp b l).2 =
      heapSize (b :: l) := by
  induction l generalizing b with
  | nil => simp [pickMin, heapSize]
  | cons c rest ih =>
    simp only [pickMin]
    split
    · have h := ih c
      simp only [heapSize] at h ⊢
      omega
    · simp [heapSize]

theorem reinsert_heapSize (rest : List α) (others : List (Blk α)) :
    heapSize (reinsert rest others) ≤ rest.length + heapSize others := by
  cases rest <;> simp [reinsert, heapSize]

/-- The retrieval loop: repeated heap-minimum extraction (the body of
`extsort_shift`) over a collection of open runs, until the heap empties. -/
def mergeAll (cmp : α → α → Int) : List (Blk α) → List α
  | [] => []
  | b :: l =>
    (pickMin cmp b l).1.dat ::
      mergeAll cmp (reinsert (pickMin cmp b l).1.rest (pickMin cmp b l).2)
termination_by l => heapSize l
decreasing_by
  rename Blk α => b
  rename List (Blk α) => l
  have h1 := pickMin_heapSize cmp b l
  have h2 := reinsert_heapSize (pickMin cmp b l).1.rest (pickMin cmp b l).2
  simp only [heapSize] at h1 ⊢
  omega

/-- The full sequence of records returned by successive `extsort_shift`
calls on a session, up to the end-of-data signal. -/
def pullAll (es : extsort_t α) : List α := mergeAll es.cmp es.bhp

/-- Byte-level view of `blk_t` for `_blk_read`: whether the descriptor is
still open (`fd != -1`), the unread bytes of the temporary file from the
current position, and the head-record buffer `dat`. -/
structure BlkFile where
  fd_open : Bool
  file : List Nat
  dat : List Nat

/-- Model of `_blk_read`: if the descriptor is already closed return 0;
otherwise `read` yields `min dat_size remaining` bytes. Zero bytes closes
the descriptor and reports no data; a partial read (fewer than `dat_size`
bytes) is a fatal `error(...)`; a full record lands in `dat` and the file
position advances. The returned number is the `ssize_t` result. -/
def _blk_read (dat_size : Nat) (b : BlkFile) : Except String (Nat × BlkFile) :=
  if b.fd_open = false then .ok (0, b)
  else
    let ret := min dat_size b.file.length
    if ret = 0 then .ok (0, { b with fd_open := false })
    else if ret < dat_size then .error "failed to read dat_size bytes"
    else .ok (ret, { b with dat := b.file.take dat_size, file := b.file.drop dat_size })

/-- The session as seen through the configuration lifecycle, before any
configuration is known to have happened: `cmp` may be unset (`NULL`) and
`dat_size` may be unset (`calloc` zero). -/
structure extsort_u (α : Type) where
  cmp : Option (α → α → Int)
  dat_size : Nat
  max_mem : Nat
  mem : Nat
  buf : List α
  nblk : Nat
  blk : List (List α)

/-- Model of `extsort_alloc`: `calloc` zeroes every field and the memory
budget defaults to `100e6`. -/
def extsort_alloc : extsort_u α :=
  { cmp := none, dat_size := 0, max_mem := 100000000,
    mem := 0, buf := [], nblk := 0, blk := [] }

/-- Model of `extsort_init`: `assert(es->cmp)` and `assert(es->dat_size)`
abort the process when the comparator or the record size has not been
configured; otherwise initialization succeeds (the scratch record is
allocated). -/
def extsort_init (es : extsort_u α) : Except String (extsort_u α) :=
  if es.cmp.isNone then .error "Assertion failed: es->cmp"
  else if es.dat_size = 0 then .error "Assertion failed: es->dat_size"
  else .ok es

/-- Model of `_buf_flush` on a possibly unconfigured session: an empty
buffer returns at once; a non-empty buffer is passed to `qsort` with the
configured comparator — calling `qsort` with a `NULL` comparator is a
crash (undefined behavior), modelled as a fatal error. -/
def _buf_flush_u (es : extsort_u α) : Except String (extsort_u α) :=
  if es.buf.length = 0 then .ok es
  else
    match es.cmp with
    | none => .error "undefined behavior: qsort with NULL comparator"
    | some c =>
      .ok { es with
            nblk := es.nblk + 1,
            blk := es.blk ++ [isort c es.buf],
            buf := [],
            mem := 0 }

/-- Model of `extsort_push` on a possibly unconfigured session: the code
performs no configuration check of its own; it flushes when the buffer is
non-empty and over budget, then appends the record. -/
def extsort_push_u (es : extsort_u α) (dat : α) : Except String (extsort_u α) := do
  let delta := ptrSize + es.dat_size
  let es2 ←
    if 0 < es.buf.length ∧ es.mem + delta > es.max_mem then _buf_flush_u es else pure es
  pure { es2 with buf := es2.buf ++ [dat], mem := es2.mem + delta }

/-- Concrete comparator over `Fin 3` used by the witnesses: ascending
numeric order, as a C-style three-way comparison. -/
def cmp3 (a b : Fin 3) : Int := (a : Int) - (b : Int)

/-- Concrete configured session over `Fin 3` used by the witnesses. -/
def ses3 : extsort_t (Fin 3) := extsort_session cmp3 4 100

/-- Every run in the heap stores a non-decreasing sequence of records:
its head followed by the unread remainder of its file. -/
def GoodHeap (cmp : α → α → Int) (l : List (Blk α)) : Prop :=
  ∀ b ∈ l, List.Chain' (cmpLe cmp) (b.dat :: b.rest)

theorem cmpLe_refl {cmp : α → α → Int} (h : TotalCmp cmp) (a : α) : cmpLe cmp a a := by
  by_cases hc : cmp a a < 0
  · exact le_of_lt hc
  · exact h.1 a a hc

theorem cmpLe_total {cmp : α → α → Int} (h : TotalCmp cmp) (a b : α) :
    cmpLe cmp a b ∨ cmpLe cmp b a := by
  by_cases hc : cmp a b < 0
  · exact Or.inl (le_of_lt hc)
  · exact Or.inr (h.1 a b hc)

theorem chain'_le_of_mem {cmp : α → α → Int} (h : TotalCmp cmp) :
    ∀ {a : α} {l : List α}, List.Chain' (cmpLe cmp) (a :: l) →
      ∀ x ∈ l, cmpLe cmp a x := by
  intro a l
  induction l generalizing a with
  | nil => intro _ x hx; cases hx
  | cons y l ih =>
    intro hch x hx
    rw [List.chain'_cons] at hch
    rcases List.mem_cons.mp hx with rfl | hx
    · exact hch.1
    · exact h.2 a y x hch.1 (ih hch.2 x hx)

theorem insertSorted_perm (cmp : α → α → Int) (x : α) (l : List α) :
    List.Perm (insertSorted cmp x l) (x :: l) := by
  induction l with
  | nil => simp [insertSorted]
  | cons y l ih =>
    simp only [insertSorted]
    split
    · exact List.Perm.refl _
    · exact ((ih.cons y).trans (List.Perm.swap x y l))

theorem insertSorted_chain {cmp : α → α → Int} (h : TotalCmp cmp) (x : α) :
    ∀ {l : List α}, List.Chain' (cmpLe cmp) l →
      List.Chain' (cmpLe cmp) (insertSorted cmp x l) := by
  intro l
  induction l with
  | nil => intro _; simp [insertSorted]
  | cons y l ih =>
    intro hch
    rw [List.chain'_cons'] at hch
    simp only [insertSorted]
    split
    · rename_i hxy
      rw [List.chain'_cons, List.chain'_cons']
      exact ⟨hxy, hch⟩
    · rename_i hxy
      have hyx : cmpLe cmp y x := le_of_lt (by
        by_contra hnot
        exact hxy (h.1 y x hnot))
      rw [List.chain'_cons']
      refine ⟨?_, ih hch.2⟩
      intro z hz
      cases l with
      | nil =>
        simp [insertSorted] at hz
        subst hz
        exact hyx
      | cons w l2 =>
        by_cases hxw : cmp x w ≤ 0
        · simp [insertSorted, hxw] at hz
          subst hz
          exact hyx
        · simp [insertSorted, hxw] at hz
          subst hz
          exact hch.1 w (by simp)

theorem isort_perm (cmp : α → α → Int) (l : List α) :
    List.Perm (isort cmp l) l := by
  induction l with
  | nil => simp [isort]
  | cons x l ih =>
    exact (insertSorted_perm cmp x (isort cmp l)).trans (ih.cons x)

theorem isort_chain {cmp : α → α → Int} (h : TotalCmp cmp) (l : List α) :
    List.Chain' (cmpLe cmp) (isort cmp l) := by
  induction l with
  | nil => simp [isort]
  | cons x l ih => exact insertSorted_chain h x ih

theorem pickMin_perm (cmp : α → α → Int) (b : Blk α) (l : List (Blk α)) :
    List.Perm ((pickMin cmp b l).1 :: (pickMin cmp b l).2) (b :: l) := by
  induction l generalizing b with
  | nil => simp [pickMin]
  | cons c rest ih =>
    simp only [pickMin]
    split
    · exact (List.Perm.swap b (pickMin cmp c rest).1 (pickMin cmp c rest).2).trans
        ((ih c).cons b)
    · exact List.Perm.refl _

theorem pickMin_le {cmp : α → α → Int} (h : TotalCmp cmp) (b : Blk α)
    (l : List (Blk α)) :
    ∀ c ∈ (pickMin cmp b l).2, cmpLe cmp (pickMin cmp b l).1.dat c.dat := by
  induction l generalizing b with
  | nil => intro c hc; cases hc
  | cons c rest ih =>
    simp only [pickMin]
    split
    · rename_i hlt
      intro d hd
      rcases List.mem_cons.mp hd with rfl | hd
      · exact le_of_lt hlt
      · exact ih c d hd
    · rename_i hnlt
      intro d hd
      have hbm : cmpLe cmp b.dat (pickMin cmp c rest).1.dat := h.1 _ _ hnlt
      have : d ∈ (pickMin cmp c rest).1 :: (pickMin cmp c rest).2 :=
        (pickMin_perm cmp c rest).symm.mem_iff.mp hd
      rcases List.mem_cons.mp this with rfl | hdo
      · exact hbm
      · exact h.2 _ _ _ hbm (ih c d hdo)

theorem heapRecords_cons (b : Blk α) (l : List (Blk α)) :
    heapRecords (b :: l) = (b.dat :: b.rest) ++ heapRecords l := by
  simp [heapRecords]

theorem heapRecords_perm {l1 l2 : List (Blk α)} (p : List.Perm l1 l2) :
    List.Perm (heapRecords l1) (heapRecords l2) := by
  induction p with
  | nil => exact List.Perm.refl _
  | cons x _ ih =>
    rw [heapRecords_cons, heapRecords_cons]
    exact List.Perm.append_left _ ih
  | swap x y l =>
    rw [heapRecords_cons, heapRecords_cons, heapRecords_cons, heapRecords_cons,
      ← List.append_assoc, ← List.append_assoc]
    exact List.Perm.append_right _ List.perm_append_comm
  | trans _ _ ih1 ih2 => exact ih1.trans ih2

theorem mem_heapRecords {x : α} :
    ∀ {l : List (Blk α)}, x ∈ heapRecords l ↔ ∃ b ∈ l, x ∈ b.dat :: b.rest := by
  intro l
  induction l with
  | nil => simp [heapRecords]
  | cons b l ih =>
    rw [heapRecords_cons]
    simp only [List.mem_append, ih, List.mem_cons]
    constructor
    · rintro (hx | ⟨c, hc, hxc⟩)
      · exact ⟨b, Or.inl rfl, hx⟩
      · exact ⟨c, Or.inr hc, hxc⟩
    · rintro ⟨c, rfl | hc, hxc⟩
      · exact Or.inl hxc
      · exact Or.inr ⟨c, hc, hxc⟩

theorem heapRecords_reinsert (rest : List α) (others : List (Blk α)) :
    heapRecords (reinsert rest others) = rest ++ heapRecords others := by
  cases rest with
  | nil => simp [reinsert]
  | cons x xs => simp [reinsert, heapRecords_cons]

theorem goodHeap_of_perm {cmp : α → α → Int} {l1 l2 : List (Blk α)}
    (p : List.Perm l1 l2) (hg : GoodHeap cmp l1) : GoodHeap cmp l2 :=
  fun b hb => hg b (p.symm.subset hb)

theorem goodHeap_reinsert {cmp : α → α → Int} {m : Blk α} {others : List (Blk α)}
    (hm : List.Chain' (cmpLe cmp) (m.dat :: m.rest)) (ho : GoodHeap cmp others) :
    GoodHeap cmp (reinsert m.rest others) := by
  cases hrest : m.rest with
  | nil => simpa [reinsert] using ho
  | cons x xs =>
    intro b hb
    rcases List.mem_cons.mp (by simpa [reinsert] using hb) with rfl | hbo
    · have := (List.chain'_cons'.mp hm).2
      simpa [hrest] using this
    · exact ho b hbo

theorem mergeAll_perm_aux (cmp : α → α → Int) :
    ∀ (n : Nat) (l : List (Blk α)), heapSize l ≤ n →
      List.Perm (mergeAll cmp l) (heapRecords l) := by
  intro n
  induction n with
  | zero =>
    intro l hl
    cases l with
    | nil => simp [mergeAll, heapRecords]
    | cons b l => simp [heapSize] at hl
  | succ n ih =>
    intro l hl
    cases l with
    | nil => simp [mergeAll, heapRecords]
    | cons b l =>
      rw [mergeAll]
      have hsz := pickMin_heapSize cmp b l
      have hre := reinsert_heapSize (pickMin cmp b l).1.rest (pickMin cmp b l).2
      have hle : heapSize (reinsert (pickMin cmp b l).1.rest (pickMin cmp b l).2) ≤ n := by
        simp only [heapSize] at hsz hl
        omega
      have htail := ih _ hle
      rw [heapRecords_reinsert] at htail
      have step : List.Perm
          ((pickMin cmp b l).1.dat ::
            mergeAll cmp (reinsert (pickMin cmp b l).1.rest (pickMin cmp b l).2))
          (heapRecords ((pickMin cmp b l).1 :: (pickMin cmp b l).2)) := by
        rw [heapRecords_cons]
        exact (htail.cons _).trans (List.Perm.refl _)
      exact step.trans (heapRecords_perm (pickMin_perm cmp b l))

theorem mergeAll_perm (cmp : α → α → Int) (l : List (Blk α)) :
    List.Perm (mergeAll cmp l) (heapRecords l) :=
  mergeAll_perm_aux cmp (heapSize l) l le_rfl

theorem mergeAll_sorted_aux {cmp : α → α → Int} (h : TotalCmp cmp) :
    ∀ (n : Nat) (l : List (Blk α)), heapSize l ≤ n → GoodHeap cmp l →
      List.Chain' (cmpLe cmp) (mergeAll cmp l) := by
  intro n
  induction n with
  | zero =>
    intro l hl _
    cases l with
    | nil => simp [mergeAll]
    | cons b l => simp [heapSize] at hl
  | succ n ih =>
    intro l hl hg
    cases l with
    | nil => simp [mergeAll]
    | cons b l =>
      rw [mergeAll]
      have hgperm : GoodHeap cmp ((pickMin cmp b l).1 :: (pickMin cmp b l).2) :=
        goodHeap_of_perm (pickMin_perm cmp b l).symm hg
      have hm : List.Chain' (cmpLe cmp)
          ((pickMin cmp b l).1.dat :: (pickMin cmp b l).1.rest) :=
        hgperm _ (List.mem_cons_self _ _)
      have hgo : GoodHeap cmp (pickMin cmp b l).2 :=
        fun c hc => hgperm c (List.mem_cons_of_mem _ hc)
      have hsz := pickMin_heapSize cmp b l
      have hre := reinsert_heapSize (pickMin cmp b l).1.rest (pickMin cmp b l).2
      have hle : heapSize (reinsert (pickMin cmp b l).1.rest (pickMin cmp b l).2) ≤ n := by
        simp only [heapSize] at hsz hl
        omega
      rw [List.chain'_cons']
      refine ⟨?_, ih _ hle (goodHeap_reinsert hm hgo)⟩
      intro z hz
      have hz2 : z ∈ mergeAll cmp (reinsert (pickMin cmp b l).1.rest (pickMin cmp b l).2) :=
        List.mem_of_mem_head? hz
      have hz3 : z ∈ (pickMin cmp b l).1.rest ++ heapRecords (pickMin cmp b l).2 := by
        have := (mergeAll_perm cmp _).subset hz2
        rwa [heapRecords_reinsert] at this
      rcases List.mem_append.mp hz3 with hzr | hzo
      · exact chain'_le_of_mem h hm z hzr
      · rcases mem_heapRecords.mp hzo with ⟨c, hc, hzc⟩
        have hmc : cmpLe cmp (pickMin cmp b l).1.dat c.dat := pickMin_le h b l c hc
        rcases List.mem_cons.mp hzc with rfl | hzc2
        · exact hmc
        · have hcchain : List.Chain' (cmpLe cmp) (c.dat :: c.rest) :=
            hgperm c (List.mem_cons_of_mem _ hc)
          exact h.2 _ _ _ hmc (chain'_le_of_mem h hcchain z hzc2)

theorem mergeAll_sorted {cmp : α → α → Int} (h : TotalCmp cmp) {l : List (Blk α)}
    (hg : GoodHeap cmp l) : List.Chain' (cmpLe cmp) (mergeAll cmp l) :=
  mergeAll_sorted_aux h (heapSize l) l le_rfl hg

/-- The multiset of records a session holds during ingestion: the records
spilled into run files plus the records still buffered. -/
def records (es : extsort_t α) : List α := es.blk.flatten ++ es.buf

/-- Every spilled run file is non-decreasing under the session comparator. -/
def SortedBlks (es : extsort_t α) : Prop :=
  ∀ f ∈ es.blk, List.Chain' (cmpLe es.cmp) f

/-- No spilled run file is empty (`_buf_flush` returns early on an empty
buffer, so every created run holds at least one record). -/
def NoEmptyBlk (es : extsort_t α) : Prop := ∀ f ∈ es.blk, f ≠ []

theorem _buf_flush_cmp (es : extsort_t α) : (_buf_flush es).cmp = es.cmp := by
  simp only [_buf_flush]; split <;> rfl

theorem _buf_flush_dat_size (es : extsort_t α) :
    (_buf_flush es).dat_size = es.dat_size := by
  simp only [_buf_flush]; split <;> rfl

theorem _buf_flush_max_mem (es : extsort_t α) :
    (_buf_flush es).max_mem = es.max_mem := by
  simp only [_buf_flush]; split <;> rfl

theorem extsort_push_cmp (es : extsort_t α) (r : α) :
    (extsort_push es r).cmp = es.cmp := by
  simp only [extsort_push]; split <;> simp [_buf_flush_cmp]

theorem extsort_push_dat_size (es : extsort_t α) (r : α) :
    (extsort_push es r).dat_size = es.dat_size := by
  simp only [extsort_push]; split <;> simp [_buf_flush_dat_size]

theorem extsort_push_max_mem (es : extsort_t α) (r : α) :
    (extsort_push es r).max_mem = es.max_mem := by
  simp only [extsort_push]; split <;> simp [_buf_flush_max_mem]

theorem pushAll_cmp (es : extsort_t α) (rs : List α) :
    (pushAll es rs).cmp = es.cmp := by
  induction rs generalizing es with
  | nil => rfl
  | cons r rs ih => rw [pushAll, ih, extsort_push_cmp]

theorem pushAll_dat_size (es : extsort_t α) (rs : List α) :
    (pushAll es rs).dat_size = es.dat_size := by
  induction rs generalizing es with
  | nil => rfl
  | cons r rs ih => rw [pushAll, ih, extsort_push_dat_size]

theorem pushAll_max_mem (es : extsort_t α) (rs : List α) :
    (pushAll es rs).max_mem = es.max_mem := by
  induction rs generalizing es with
  | nil => rfl
  | cons r rs ih => rw [pushAll, ih, extsort_push_max_mem]

theorem extsort_sort_cmp (es : extsort_t α) : (extsort_sort es).cmp = es.cmp := by
  simp [extsort_sort, _buf_flush_cmp]

theorem extsort_shift_cmp (es : extsort_t α) :
    ((extsort_shift es).2).cmp = es.cmp := by
  simp only [extsort_shift]
  cases es.bhp <;> rfl

theorem shiftN_cmp (n : Nat) (es : extsort_t α) : (shiftN n es).cmp = es.cmp := by
  induction n generalizing es with
  | zero => rfl
  | succ n ih => rw [shiftN, ih, extsort_shift_cmp]

theorem _buf_flush_sortedBlks {es : extsort_t α} (h : TotalCmp es.cmp)
    (hs : SortedBlks es) : SortedBlks (_buf_flush es) := by
  unfold SortedBlks at hs ⊢
  rw [_buf_flush_cmp]
  simp only [_buf_flush]
  split
  · exact hs
  · intro f hf
    rcases List.mem_append.mp hf with hf | hf
    · exact hs f hf
    · rw [List.mem_singleton.mp hf]
      exact isort_chain h es.buf

theorem extsort_push_sortedBlks {es : extsort_t α} (h : TotalCmp es.cmp)
    (hs : SortedBlks es) (r : α) : SortedBlks (extsort_push es r) := by
  unfold SortedBlks
  rw [extsort_push_cmp]
  simp only [extsort_push]
  split
  · have := _buf_flush_sortedBlks h hs
    unfold SortedBlks at this
    rw [_buf_flush_cmp] at this
    exact this
  · exact hs

theorem pushAll_sortedBlks {es : extsort_t α} (h : TotalCmp es.cmp)
    (hs : SortedBlks es) (rs : List α) : SortedBlks (pushAll es rs) := by
  induction rs generalizing es with
  | nil => exact hs
  | cons r rs ih =>
    rw [pushAll]
    exact ih (by rw [extsort_push_cmp]; exact h) (extsort_push_sortedBlks h hs r)

theorem extsort_sort_goodHeap {es : extsort_t α} (h : TotalCmp es.cmp)
    (hs : SortedBlks es) : GoodHeap es.cmp (extsort_sort es).bhp := by
  intro b hb
  simp only [extsort_sort] at hb
  rcases List.mem_filterMap.mp hb with ⟨f, hf, hfb⟩
  cases f with
  | nil => simp at hfb
  | cons x xs =>
    simp only [Option.some.injEq] at hfb
    have hchain : List.Chain' (cmpLe es.cmp) (x :: xs) := by
      have := _buf_flush_sortedBlks h hs (x :: xs) hf
      rwa [_buf_flush_cmp] at this
    rw [← hfb]
    exact hchain

theorem _buf_flush_records (es : extsort_t α) :
    List.Perm (records (_buf_flush es)) (records es) := by
  simp only [records, _buf_flush]
  split
  · exact List.Perm.refl _
  · simp only [List.flatten_append, List.flatten_cons, List.flatten_nil,
      List.append_nil]
    exact List.Perm.append_left _ (isort_perm es.cmp es.buf)

theorem extsort_push_records (es : extsort_t α) (r : α) :
    List.Perm (records (extsort_push es r)) (records es ++ [r]) := by
  simp only [extsort_push]
  split
  · have hfl := _buf_flush_records es
    simp only [records] at hfl ⊢
    have : List.Perm ((_buf_flush es).blk.flatten ++ ((_buf_flush es).buf ++ [r]))
        ((es.blk.flatten ++ es.buf) ++ [r]) := by
      rw [← List.append_assoc]
      exact hfl.append_right [r]
    exact this
  · simp only [records]
    rw [← List.append_assoc]

theorem pushAll_records (es : extsort_t α) (rs : List α) :
    List.Perm (records (pushAll es rs)) (records es ++ rs) := by
  induction rs generalizing es with
  | nil => simp [pushAll]
  | cons r rs ih =>
    rw [pushAll]
    have h1 := ih (extsort_push es r)
    have h2 := (extsort_push_records es r).append_right rs
    have h3 := h1.trans h2
    simpa using h3

theorem _buf_flush_noEmpty {es : extsort_t α} (hs : NoEmptyBlk es) :
    NoEmptyBlk (_buf_flush es) := by
  unfold NoEmptyBlk at hs ⊢
  simp only [_buf_flush]
  split
  · exact hs
  · rename_i hne
    intro f hf
    rcases List.mem_append.mp hf with hf | hf
    · exact hs f hf
    · rw [List.mem_singleton.mp hf]
      intro hnil
      have := (isort_perm es.cmp es.buf).length_eq
      rw [hnil] at this
      simp at this
      omega

theorem extsort_push_noEmpty {es : extsort_t α} (hs : NoEmptyBlk es) (r : α) :
    NoEmptyBlk (extsort_push es r) := by
  unfold NoEmptyBlk
  simp only [extsort_push]
  split
  · exact _buf_flush_noEmpty hs
  · exact hs

theorem pushAll_noEmpty {es : extsort_t α} (hs : NoEmptyBlk es) (rs : List α) :
    NoEmptyBlk (pushAll es rs) := by
  induction rs generalizing es with
  | nil => exact hs
  | cons r rs ih =>
    rw [pushAll]
    exact ih (extsort_push_noEmpty hs r)

theorem heapRecords_filterMap (L : List (List α)) (hne : ∀ f ∈ L, f ≠ []) :
    heapRecords (L.filterMap (fun f =>
      match f with
      | [] => none
      | x :: xs => some (⟨x, xs⟩ : Blk α))) = L.flatten := by
  induction L with
  | nil => simp [heapRecords]
  | cons f L ih =>
    cases f with
    | nil => exact absurd rfl (hne [] (List.mem_cons_self _ _))
    | cons x xs =>
      simp only [List.filterMap_cons, List.flatten_cons]
      rw [heapRecords_cons, ih (fun g hg => hne g (List.mem_cons_of_mem _ hg))]

theorem extsort_sort_heapRecords {es : extsort_t α} (hne : NoEmptyBlk es) :
    heapRecords (extsort_sort es).bhp = (_buf_flush es).blk.flatten := by
  simp only [extsort_sort]
  exact heapRecords_filterMap _ (_buf_flush_noEmpty hne)

theorem _buf_flush_mem_formula {es : extsort_t α}
    (h : es.mem = es.buf.length * (ptrSize + es.dat_size)) :
    (_buf_flush es).mem =
      (_buf_flush es).buf.length * (ptrSize + (_buf_flush es).dat_size) := by
  simp only [_buf_flush]
  split
  · exact h
  · simp

theorem extsort_push_mem_formula {es : extsort_t α}
    (h : es.mem = es.buf.length * (ptrSize + es.dat_size)) (r : α) :
    (extsort_push es r).mem =
      (extsort_push es r).buf.length * (ptrSize + (extsort_push es r).dat_size) := by
  simp only [extsort_push]
  split
  · have h2 := _buf_flush_mem_formula h
    simp only [List.length_append, List.length_singleton, _buf_flush_dat_size] at h2 ⊢
    rw [h2]
    ring
  · simp only [List.length_append, List.length_singleton]
    rw [h]
    ring

theorem pushAll_mem_formula {es : extsort_t α}
    (h : es.mem = es.buf.length * (ptrSize + es.dat_size)) (rs : List α) :
    (pushAll es rs).mem =
      (pushAll es rs).buf.length * (ptrSize + (pushAll es rs).dat_size) := by
  induction rs generalizing es with
  | nil => exact h
  | cons r rs ih =>
    rw [pushAll]
    exact ih (extsort_push_mem_formula h r)

theorem extsort_push_budget {es : extsort_t α}
    (h : es.mem = es.buf.length * (ptrSize + es.dat_size)) (r : α) :
    (extsort_push es r).mem ≤ es.max_mem ∨
      ((extsort_push es r).buf.length = 1 ∧ es.max_mem < ptrSize + es.dat_size) := by
  simp only [extsort_push]
  split
  · rename_i hcond
    have hne : ¬ (es.buf.length = 0) := by omega
    simp only [_buf_flush, if_neg hne]
    simp only [List.length_append, List.length_nil, List.length_singleton]
    by_cases hd : ptrSize + es.dat_size ≤ es.max_mem
    · left; simpa using hd
    · right
      constructor
      · simp
      · omega
  · rename_i hcond
    rw [Classical.not_and_iff_or_not_not] at hcond
    rcases hcond with hlen | hmem
    · have hlen0 : es.buf.length = 0 := by omega
      have hm0 : es.mem = 0 := by rw [h, hlen0]; ring
      simp only [List.length_append, List.length_singleton, hlen0, hm0]
      by_cases hd : ptrSize + es.dat_size ≤ es.max_mem
      · left; simpa using hd
      · right; exact ⟨by trivial, by omega⟩
    · left; omega

theorem pullAll_step (es : extsort_t α) :
    pullAll es = (match extsort_shift es with
      | (none, _) => ([] : List α)
      | (some r, es2) => r :: pullAll es2) := by
  cases hb : es.bhp with
  | nil => simp [pullAll, extsort_shift, hb, mergeAll]
  | cons b l =>
    simp only [pullAll, extsort_shift, hb]
    rw [mergeAll]

theorem extsort_shift_goodHeap {cmp : α → α → Int} {es : extsort_t α}
    (hc : es.cmp = cmp) (hg : GoodHeap cmp es.bhp) :
    GoodHeap cmp ((extsort_shift es).2).bhp := by
  cases hb : es.bhp with
  | nil => simp only [extsort_shift, hb]; rw [← hb]; exact hg
  | cons b l =>
    simp only [extsort_shift, hb, hc]
    rw [hb] at hg
    have hgperm : GoodHeap cmp ((pickMin cmp b l).1 :: (pickMin cmp b l).2) :=
      goodHeap_of_perm (pickMin_perm cmp b l).symm hg
    exact goodHeap_reinsert (hgperm _ (List.mem_cons_self _ _))
      (fun c hc2 => hgperm c (List.mem_cons_of_mem _ hc2))

theorem shiftN_goodHeap {cmp : α → α → Int} {es : extsort_t α} (n : Nat)
    (hc : es.cmp = cmp) (hg : GoodHeap cmp es.bhp) :
    GoodHeap cmp ((shiftN n es)).bhp := by
  induction n generalizing es with
  | zero => exact hg
  | succ n ih =>
    rw [shiftN]
    exact ih (by rw [extsort_shift_cmp, hc]) (extsort_shift_goodHeap hc hg)

theorem heapMin_le {cmp : α → α → Int} (h : TotalCmp cmp) {l : List (Blk α)}
    (hg : GoodHeap cmp l) {m : Blk α} (hm : heapMin cmp l = some m) :
    ∀ x ∈ heapRecords l, cmpLe cmp m.dat x := by
  cases l with
  | nil => cases hm
  | cons b bl =>
    simp only [heapMin, Option.some.injEq] at hm
    subst hm
    intro x hx
    have hgperm : GoodHeap cmp ((pickMin cmp b bl).1 :: (pickMin cmp b bl).2) :=
      goodHeap_of_perm (pickMin_perm cmp b bl).symm hg
    have hx2 : x ∈ heapRecords ((pickMin cmp b bl).1 :: (pickMin cmp b bl).2) :=
      (heapRecords_perm (pickMin_perm cmp b bl)).symm.subset hx
    rw [heapRecords_cons] at hx2
    rcases List.mem_append.mp hx2 with hxm | hxo
    · rcases List.mem_cons.mp hxm with rfl | hxr
      · exact cmpLe_refl h _
      · exact chain'_le_of_mem h (hgperm _ (List.mem_cons_self _ _)) x hxr
    · rcases mem_heapRecords.mp hxo with ⟨c, hc, hxc⟩
      have hmc : cmpLe cmp (pickMin cmp b bl).1.dat c.dat := pickMin_le h b bl c hc
      rcases List.mem_cons.mp hxc with rfl | hxc2
      · exact hmc
      · exact h.2 _ _ _ hmc
          (chain'_le_of_mem h (hgperm c (List.mem_cons_of_mem _ hc)) x hxc2)

theorem _buf_flush_buf_nil (es : extsort_t α) : (_buf_flush es).buf = [] := by
  simp only [_buf_flush]
  split
  · rename_i h0
    exact List.length_eq_zero.mp h0
  · rfl

theorem session_records (cmp : α → α → Int) (dat_size max_mem : Nat) :
    records (extsort_session cmp dat_size max_mem : extsort_t α) = [] := rfl

/-- C1: For every finite sequence of records pushed into a session
configured with a total-order comparator, after finalize
(`extsort_sort`) the sequence of records returned by successive pull
calls (`extsort_shift`), up to the end-of-data signal, is non-decreasing
under the configured comparator. -/
theorem claim_C1_pull_sorted {cmp : α → α → Int} (h : TotalCmp cmp)
    (dat_size max_mem : Nat) (recs : List α) :
    List.Chain' (cmpLe cmp)
      (pullAll (extsort_sort (pushAll (extsort_session cmp dat_size max_mem) recs))) := by
  have hcmp : (pushAll (extsort_session cmp dat_size max_mem) recs).cmp = cmp := by
    rw [pushAll_cmp]; rfl
  have hs : SortedBlks (pushAll (extsort_session cmp dat_size max_mem) recs) :=
    pushAll_sortedBlks (by rw [extsort_session]; exact h) (fun f hf => by cases hf) recs
  have hg := extsort_sort_goodHeap (by rw [hcmp]; exact h) hs
  rw [hcmp] at hg
  have hcmp2 : (extsort_sort (pushAll (extsort_session cmp dat_size max_mem) recs)).cmp = cmp := by
    rw [extsort_sort_cmp, hcmp]
  rw [pullAll, hcmp2]
  exact mergeAll_sorted h hg

/-- Witness for C1 at a concrete session over `Fin 3`. -/
theorem claim_C1_witness :
    List.Chain' (cmpLe cmp3)
      (pullAll (extsort_sort (pushAll (extsort_session cmp3 4 100) [2, 0, 1, 1]))) :=
  claim_C1_pull_sorted (by decide) 4 100 [2, 0, 1, 1]

/-- C2: For every finite sequence of records pushed into a session, the
records returned by pull before end-of-data are a permutation of the
pushed records: same count, and every returned record is byte-identical
to some pushed record. -/
theorem claim_C2_pull_perm (cmp : α → α → Int) (dat_size max_mem : Nat)
    (recs : List α) :
    List.Perm
      (pullAll (extsort_sort (pushAll (extsort_session cmp dat_size max_mem) recs)))
      recs ∧
    (pullAll (extsort_sort (pushAll (extsort_session cmp dat_size max_mem) recs))).length
      = recs.length ∧
    ∀ y ∈ pullAll (extsort_sort (pushAll (extsort_session cmp dat_size max_mem) recs)),
      y ∈ recs := by
  have hne : NoEmptyBlk (pushAll (extsort_session cmp dat_size max_mem) recs) :=
    pushAll_noEmpty (fun f hf => by cases hf) recs
  have h1 : List.Perm
      (pullAll (extsort_sort (pushAll (extsort_session cmp dat_size max_mem) recs)))
      (heapRecords (extsort_sort (pushAll (extsort_session cmp dat_size max_mem) recs)).bhp) :=
    mergeAll_perm _ _
  rw [extsort_sort_heapRecords hne] at h1
  have h2 : (_buf_flush (pushAll (extsort_session cmp dat_size max_mem) recs)).blk.flatten =
      records (_buf_flush (pushAll (extsort_session cmp dat_size max_mem) recs)) := by
    rw [records, _buf_flush_buf_nil, List.append_nil]
  rw [h2] at h1
  have h3 := _buf_flush_records (pushAll (extsort_session cmp dat_size max_mem) recs)
  have h4 := pushAll_records (extsort_session cmp dat_size max_mem) recs
  rw [session_records] at h4
  simp only [List.nil_append] at h4
  have hperm := (h1.trans h3).trans h4
  exact ⟨hperm, hperm.length_eq, fun y hy => hperm.subset hy⟩

/-- C3: Immediately after every `extsort_push` returns, the buffer's
memory estimate equals the number of buffered records times
(`sizeof(void*) + dat_size`), and it does not exceed `max_mem` except in
the single tolerated case where exactly one record is buffered and that
record's estimate alone exceeds the budget. -/
theorem claim_C3_budget (cmp : α → α → Int) (dat_size max_mem : Nat)
    (recs : List α) (r : α) :
    (extsort_push (pushAll (extsort_session cmp dat_size max_mem) recs) r).mem =
      (extsort_push (pushAll (extsort_session cmp dat_size max_mem) recs) r).buf.length *
        (ptrSize + dat_size) ∧
    ((extsort_push (pushAll (extsort_session cmp dat_size max_mem) recs) r).mem ≤ max_mem ∨
      ((extsort_push (pushAll (extsort_session cmp dat_size max_mem) recs) r).buf.length = 1 ∧
        max_mem < ptrSize + dat_size)) := by
  have hds : (pushAll (extsort_session cmp dat_size max_mem) recs).dat_size = dat_size := by
    rw [pushAll_dat_size]; rfl
  have hmm : (pushAll (extsort_session cmp dat_size max_mem) recs).max_mem = max_mem := by
    rw [pushAll_max_mem]; rfl
  have hinv : (pushAll (extsort_session cmp dat_size max_mem) recs).mem =
      (pushAll (extsort_session cmp dat_size max_mem) recs).buf.length *
        (ptrSize + (pushAll (extsort_session cmp dat_size max_mem) recs).dat_size) :=
    pushAll_mem_formula (by simp [extsort_session]) recs
  constructor
  · have := extsort_push_mem_formula hinv r
    rwa [extsort_push_dat_size, hds] at this
  · have := extsort_push_budget hinv r
    rwa [hds, hmm] at this

/-- C4: At every point of the retrieval phase at which the merge heap is
non-empty, the record at the heap's minimum is a globally smallest
not-yet-returned record across all open runs, under the configured
comparator. -/
theorem claim_C4_heap_min {cmp : α → α → Int} (h : TotalCmp cmp)
    (dat_size max_mem : Nat) (recs : List α) (n : Nat) (m : Blk α)
    (hm : heapMin cmp
      (shiftN n (extsort_sort (pushAll (extsort_session cmp dat_size max_mem) recs))).bhp
      = some m) :
    ∀ x ∈ heapRecords
      (shiftN n (extsort_sort (pushAll (extsort_session cmp dat_size max_mem) recs))).bhp,
      cmpLe cmp m.dat x := by
  have hcmp : (pushAll (extsort_session cmp dat_size max_mem) recs).cmp = cmp := by
    rw [pushAll_cmp]; rfl
  have hs : SortedBlks (pushAll (extsort_session cmp dat_size max_mem) recs) :=
    pushAll_sortedBlks (by exact h) (fun f hf => by cases hf) recs
  have hg := extsort_sort_goodHeap (by rw [hcmp]; exact h) hs
  rw [hcmp] at hg
  have hcmp2 : (extsort_sort (pushAll (extsort_session cmp dat_size max_mem) recs)).cmp = cmp := by
    rw [extsort_sort_cmp, hcmp]
  have hgn := shiftN_goodHeap n hcmp2 hg
  exact heapMin_le h hgn hm

set_option maxHeartbeats 2000000 in
/-- Witness for C4 at a concrete session over `Fin 3`: the heap minimum
record 0 is below the still-open record 2. -/
theorem claim_C4_witness :
    cmpLe cmp3 (⟨0, [1, 2]⟩ : Blk (Fin 3)).dat 2 :=
  @claim_C4_heap_min (Fin 3) cmp3 (by decide) 4 100 [2, 0, 1] 0 ⟨0, [1, 2]⟩ rfl 2
    (by decide)

/-- C5: For every run created by a flush, the sequence of records stored
in the run — the buffered records sorted by the configured comparator
and written sequentially — is non-decreasing under the comparator. -/
theorem claim_C5_run_sorted {es : extsort_t α} (h : TotalCmp es.cmp)
    (hne : es.buf ≠ []) :
    (_buf_flush es).blk = es.blk ++ [isort es.cmp es.buf] ∧
    List.Perm (isort es.cmp es.buf) es.buf ∧
    List.Chain' (cmpLe es.cmp) (isort es.cmp es.buf) := by
  have hlen : ¬ (es.buf.length = 0) := by
    intro h0
    exact hne (List.length_eq_zero.mp h0)
  refine ⟨?_, isort_perm es.cmp es.buf, isort_chain h es.buf⟩
  simp [_buf_flush, hlen]

/-- Witness for C5 at a concrete session over `Fin 3`. -/
theorem claim_C5_witness :
    (_buf_flush (pushAll ses3 [2, 0, 1])).blk =
      (pushAll ses3 [2, 0, 1]).blk ++
        [isort (pushAll ses3 [2, 0, 1]).cmp (pushAll ses3 [2, 0, 1]).buf] ∧
    List.Perm (isort (pushAll ses3 [2, 0, 1]).cmp (pushAll ses3 [2, 0, 1]).buf)
      (pushAll ses3 [2, 0, 1]).buf ∧
    List.Chain' (cmpLe (pushAll ses3 [2, 0, 1]).cmp)
      (isort (pushAll ses3 [2, 0, 1]).cmp (pushAll ses3 [2, 0, 1]).buf) :=
  claim_C5_run_sorted (by decide) (by decide)

/-- C6: Every `extsort_push` call either flushes first — exactly when the
buffer is non-empty and the new record's estimate would push the memory
estimate over budget, in which case one new run holding the sorted buffer
is created and the buffer restarts with the new record — or appends with
no flush; in both cases the pushed record ends up in the buffer. -/
theorem claim_C6_push_cases (es : extsort_t α) (r : α) :
    (extsort_push es r).blk =
      (if 0 < es.buf.length ∧ es.mem + (ptrSize + es.dat_size) > es.max_mem
       then es.blk ++ [isort es.cmp es.buf] else es.blk) ∧
    (extsort_push es r).nblk =
      (if 0 < es.buf.length ∧ es.mem + (ptrSize + es.dat_size) > es.max_mem
       then es.nblk + 1 else es.nblk) ∧
    (extsort_push es r).buf =
      (if 0 < es.buf.length ∧ es.mem + (ptrSize + es.dat_size) > es.max_mem
       then [r] else es.buf ++ [r]) ∧
    r ∈ (extsort_push es r).buf := by
  by_cases hcond : 0 < es.buf.length ∧ es.mem + (ptrSize + es.dat_size) > es.max_mem
  · have hlen : ¬ (es.buf.length = 0) := by omega
    simp [extsort_push, _buf_flush, hcond, hlen]
  · simp [extsort_push, hcond]

/-- C7: Every `_blk_read` on an open run with a positive record size has
exactly three outcomes: a full record is read into the head slot and the
file position advances; zero bytes are read, the descriptor is closed and
no data is signalled; or a partial read fails fatally. -/
theorem claim_C7_blk_read (dat_size : Nat) (b : BlkFile)
    (hopen : b.fd_open = true) (hpos : 0 < dat_size) :
    (dat_size ≤ b.file.length ∧
      _blk_read dat_size b =
        .ok (dat_size, { b with dat := b.file.take dat_size, file := b.file.drop dat_size })) ∨
    (b.file.length = 0 ∧
      _blk_read dat_size b = .ok (0, { b with fd_open := false })) ∨
    (0 < b.file.length ∧ b.file.length < dat_size ∧
      _blk_read dat_size b = .error "failed to read dat_size bytes") := by
  have hno : ¬ (b.fd_open = false) := by simp [hopen]
  rcases Nat.lt_trichotomy b.file.length dat_size with hlt | heq | hgt
  · rcases Nat.eq_zero_or_pos b.file.length with h0 | h0
    · refine Or.inr (Or.inl ⟨h0, ?_⟩)
      have hr : min dat_size b.file.length = 0 := by omega
      simp [_blk_read, hno, hr]
    · refine Or.inr (Or.inr ⟨h0, hlt, ?_⟩)
      have hr : min dat_size b.file.length = b.file.length := by omega
      have hr0 : ¬ (min dat_size b.file.length = 0) := by omega
      have hr1 : min dat_size b.file.length < dat_size := by omega
      simp [_blk_read, hno, hr0, hr1]
  · refine Or.inl ⟨by omega, ?_⟩
    have hr : min dat_size b.file.length = dat_size := by omega
    have hr0 : ¬ (min dat_size b.file.length = 0) := by omega
    have hr1 : ¬ (min dat_size b.file.length < dat_size) := by omega
    have hds0 : ¬ (dat_size = 0) := by omega
    simp [_blk_read, hno, hr0, hr1, hr, hds0]
  · refine Or.inl ⟨by omega, ?_⟩
    have hr : min dat_size b.file.length = dat_size := by omega
    have hr0 : ¬ (min dat_size b.file.length = 0) := by omega
    have hr1 : ¬ (min dat_size b.file.length < dat_size) := by omega
    have hds0 : ¬ (dat_size = 0) := by omega
    simp [_blk_read, hno, hr0, hr1, hr, hds0]

/-- Witness for C7 at a concrete open run with four file bytes and a
two-byte record size. -/
theorem claim_C7_witness :
    (2 ≤ (BlkFile.mk true [1, 2, 3, 4] []).file.length ∧
      _blk_read 2 (BlkFile.mk true [1, 2, 3, 4] []) =
        .ok (2, { BlkFile.mk true [1, 2, 3, 4] [] with
                  dat := (BlkFile.mk true [1, 2, 3, 4] []).file.take 2,
                  file := (BlkFile.mk true [1, 2, 3, 4] []).file.drop 2 })) ∨
    ((BlkFile.mk true [1, 2, 3, 4] []).file.length = 0 ∧
      _blk_read 2 (BlkFile.mk true [1, 2, 3, 4] []) =
        .ok (0, { BlkFile.mk true [1, 2, 3, 4] [] with fd_open := false })) ∨
    (0 < (BlkFile.mk true [1, 2, 3, 4] []).file.length ∧
      (BlkFile.mk true [1, 2, 3, 4] []).file.length < 2 ∧
      _blk_read 2 (BlkFile.mk true [1, 2, 3, 4] []) =
        .error "failed to read dat_size bytes") :=
  claim_C7_blk_read 2 (BlkFile.mk true [1, 2, 3, 4] []) rfl (by decide)

/-- C8 counterexample: `extsort_push` on a freshly allocated, entirely
unconfigured session (no comparator, no record size) completes normally
with the record buffered, instead of failing fatally: no ingestion-side
precondition check exists in the code. -/
theorem claim_C8_counterexample :
    extsort_push_u (@extsort_alloc (Fin 1)) 0 =
      .ok { @extsort_alloc (Fin 1) with buf := [0], mem := ptrSize } := rfl

/-- C8 (amended): `extsort_init` — the mandatory initialization step that
precedes any ingestion or retrieval — fails fatally (assertion) exactly
when the comparator or the record size has not been configured; the
ingestion and retrieval operations themselves perform no configuration
check. -/
theorem claim_C8_init_checks (es : extsort_u α) :
    (extsort_init es).isOk = true ↔ (es.cmp.isSome = true ∧ es.dat_size ≠ 0) := by
  cases hc : es.cmp with
  | none => simp [extsort_init, hc, Except.isOk, Except.toBool]
  | some c =>
    by_cases hd : es.dat_size = 0 <;>
      simp [extsort_init, hc, hd, Except.isOk, Except.toBool]

/-- C9: For a session into which zero records are pushed, finalize
creates no run and the first pull immediately returns the end-of-data
signal. -/
theorem claim_C9_empty_session (cmp : α → α → Int) (dat_size max_mem : Nat) :
    (extsort_sort (pushAll (extsort_session cmp dat_size max_mem) [])).nblk = 0 ∧
    (extsort_shift (extsort_sort (pushAll (extsort_session cmp dat_size max_mem) []))).1
      = none ∧
    pullAll (extsort_sort (pushAll (extsort_session cmp dat_size max_mem) [])) = [] := by
  refine ⟨rfl, rfl, ?_⟩
  rw [pullAll]
  simp [extsort_sort, _buf_flush, extsort_session, pushAll, mergeAll]

/-- C10: Once a pull has returned the end-of-data signal (the merge heap
is empty), every subsequent pull on the same session returns end-of-data
and leaves the session state unchanged. -/
theorem claim_C10_pull_after_eod {es : extsort_t α}
    (h : (extsort_shift es).1 = none) :
    extsort_shift es = (none, es) ∧
    ∀ n : Nat, shiftN n es = es ∧ extsort_shift (shiftN n es) = (none, es) := by
  have hb : es.bhp = [] := by
    cases hbhp : es.bhp with
    | nil => rfl
    | cons b l => simp [extsort_shift, hbhp] at h
  have hshift : extsort_shift es = (none, es) := by
    simp [extsort_shift, hb]
  have hn : ∀ n : Nat, shiftN n es = es := by
    intro n
    induction n with
    | zero => rfl
    | succ n ih => rw [shiftN, hshift, ih]
  exact ⟨hshift, fun n => ⟨hn n, by rw [hn n, hshift]⟩⟩

/-- Witness for C10 at a concrete exhausted session over `Fin 3`. -/
theorem claim_C10_witness :
    extsort_shift ses3 = (none, ses3) ∧
    shiftN 3 ses3 = ses3 ∧
    extsort_shift (shiftN 3 ses3) = (none, ses3) :=
  ⟨(@claim_C10_pull_after_eod (Fin 3) ses3 rfl).1,
   ((@claim_C10_pull_after_eod (Fin 3) ses3 rfl).2 3).1,
   ((@claim_C10_pull_after_eod (Fin 3) ses3 rfl).2 3).2⟩

end Extsort
